import Mathlib

/-!
Verification of the dictionary-scraper repository.

JavaScript strings are modelled as `List Char` (sequences of Unicode scalar
values).  The cheerio DOM is modelled as a rose tree `Node`; `cheerio.load`
(the third-party HTML parser) is treated as an external collaborator, so the
extractors take the already-parsed tree together with the raw HTML text,
exactly as the calls in `src/scrapers/wordreference.js` receive them.
-/

/-- The JavaScript `\s` character class (also the set trimmed by
`String.prototype.trim`): space, tab, line terminators, and the Unicode
space separators. -/
def isJsWS (c : Char) : Bool :=
  decide (c.toNat = 32 ∨ c.toNat = 9 ∨ c.toNat = 10 ∨ c.toNat = 11 ∨ c.toNat = 12 ∨
    c.toNat = 13 ∨ c.toNat = 160 ∨ c.toNat = 0x1680 ∨
    (0x2000 ≤ c.toNat ∧ c.toNat ≤ 0x200A) ∨ c.toNat = 0x2028 ∨ c.toNat = 0x2029 ∨
    c.toNat = 0x202F ∨ c.toNat = 0x205F ∨ c.toNat = 0x3000 ∨ c.toNat = 0xFEFF)

/-- JavaScript `\w`: ASCII letters, digits and underscore. -/
def isWordChar (c : Char) : Bool :=
  decide ((65 ≤ c.toNat ∧ c.toNat ≤ 90) ∨ (97 ≤ c.toNat ∧ c.toNat ≤ 122) ∨
    (48 ≤ c.toNat ∧ c.toNat ≤ 57) ∨ c.toNat = 95)

/-- The allow-list of `TextProcessor.cleanText` (src/utils/common.js line 157):
word characters, whitespace, and the Unicode ranges U+00C0-017F, U+0400-04FF,
U+4E00-9FFF, U+3040-309F, U+30A0-30FF, U+0590-05FF, U+0600-06FF; characters
outside it are removed. -/
def allowedChar (c : Char) : Bool :=
  isWordChar c || isJsWS c ||
  decide ((0xC0 ≤ c.toNat ∧ c.toNat ≤ 0x17F) ∨ (0x400 ≤ c.toNat ∧ c.toNat ≤ 0x4FF) ∨
    (0x4E00 ≤ c.toNat ∧ c.toNat ≤ 0x9FFF) ∨ (0x3040 ≤ c.toNat ∧ c.toNat ≤ 0x309F) ∨
    (0x30A0 ≤ c.toNat ∧ c.toNat ≤ 0x30FF) ∨ (0x590 ≤ c.toNat ∧ c.toNat ≤ 0x5FF) ∨
    (0x600 ≤ c.toNat ∧ c.toNat ≤ 0x6FF))

/-- `replace(/\s+/g, ' ')`: every maximal run of whitespace becomes a single
space.  The boolean argument records whether the previous character was
whitespace (i.e. whether we are inside a run whose space was already
emitted). -/
def collapseAux : Bool → List Char → List Char
  | _, [] => []
  | prevWS, c :: t =>
    if isJsWS c then
      if prevWS then collapseAux true t else ' ' :: collapseAux true t
    else c :: collapseAux false t

/-- `replace(/\s+/g, ' ')` on a whole string. -/
def collapseWS (l : List Char) : List Char := collapseAux false l

/-- `replace(/^\s+|\s+$/g, '')`, which on a JS string is the same operation as
`String.prototype.trim`: drop leading and trailing whitespace. -/
def trimWS (l : List Char) : List Char :=
  ((l.dropWhile isJsWS).reverse.dropWhile isJsWS).reverse

/-- `TextProcessor.cleanText` (src/utils/common.js lines 151-159): the chain
`replace(/\s+/g,' ')` then `replace(/^\s+|\s+$/g,'')` then removal of
characters outside the allow-list, then `.trim()`.  (`if (!text) return ''`
only matters for non-string inputs; on the empty string the chain already
yields the empty string.) -/
def cleanText (l : List Char) : List Char :=
  trimWS (List.filter allowedChar (trimWS (collapseWS l)))

/-- JS `String.prototype.toLowerCase`, modelled on the ASCII range (the
grammatical-type table of src/utils/common.js only contains ASCII names). -/
def jsToLower (c : Char) : Char :=
  if 65 ≤ c.toNat ∧ c.toNat ≤ 90 then Char.ofNat (c.toNat + 32) else c

/-- Lowercase a whole string. -/
def lowerStr (l : List Char) : List Char := l.map jsToLower

/-- `needle` occurs contiguously inside `hay`; this is JS
`hay.includes(needle)`. -/
def occursIn (need : List Char) : List Char → Bool
  | [] => need.isPrefixOf ([] : List Char)
  | c :: t => need.isPrefixOf (c :: t) || occursIn need t

/-- The ordered grammatical-type table of `TextProcessor.extractGrammaticalType`
(src/utils/common.js lines 169-185); object-literal insertion order. -/
def typeMap : List (List Char × List Char) :=
  [("noun".toList, "n".toList), ("verb".toList, "v".toList),
   ("adjective".toList, "adj".toList), ("adverb".toList, "adv".toList),
   ("preposition".toList, "prep".toList), ("conjunction".toList, "conj".toList),
   ("interjection".toList, "interj".toList), ("pronoun".toList, "pron".toList),
   ("article".toList, "art".toList), ("masculine".toList, "m".toList),
   ("feminine".toList, "f".toList), ("neuter".toList, "nt".toList),
   ("plural".toList, "pl".toList), ("singular".toList, "sg".toList),
   ("invariable".toList, "inv".toList)]

/-- First value of the table whose key passes `p`, scanning in declaration
order. -/
def firstValueSuchThat (p : List Char → Bool) : List (List Char × List Char) → Option (List Char)
  | [] => none
  | kv :: rest => if p kv.1 then some kv.2 else firstValueSuchThat p rest

/-- `TextProcessor.extractGrammaticalType` (src/utils/common.js lines 166-202):
lowercase and trim; exact table lookup; else first table key occurring as a
substring; else the normalized input. -/
def extractGrammaticalType (text : List Char) : List Char :=
  if text = [] then []
  else
    let normalized := trimWS (lowerStr text)
    match firstValueSuchThat (fun k => normalized = k) typeMap with
    | some v => v
    | none =>
      match firstValueSuchThat (fun k => occursIn k normalized) typeMap with
      | some v => v
      | none => normalized

/-- The grammatical classifier as the specification words it: lowercase and
trim; return the short code on an exact match; otherwise the code of the
first table entry (declaration order) whose name is a substring of the
input; otherwise the lowercased/trimmed input unchanged. -/
def classifyGrammaticalTypeSpec (text : List Char) : List Char :=
  let normalized := trimWS (lowerStr text)
  match firstValueSuchThat (fun k => normalized = k) typeMap with
  | some v => v
  | none =>
    match firstValueSuchThat (fun k => occursIn k normalized) typeMap with
    | some v => v
    | none => normalized

/-! ## DOM model

`cheerio.load` produces a document tree; we model an element by its tag name,
class list, optional id and attribute list, plus children.  Selections are
lists of nodes in document (pre)order, which is how cheerio's `each`
iterates. -/

inductive Node where
  | text (s : List Char) : Node
  | elem (tag : List Char) (classes : List (List Char)) (idAttr : Option (List Char))
         (attrs : List (List Char × List Char)) (children : List Node) : Node

/-- Tag-name test (CSS type selector). -/
def isTag (nm : List Char) : Node → Bool
  | .text _ => false
  | .elem t _ _ _ _ => t = nm

/-- Class test (CSS class selector). -/
def hasClass (c : List Char) : Node → Bool
  | .text _ => false
  | .elem _ cls _ _ _ => cls.contains c

/-- `[id]` attribute-present selector. -/
def hasId : Node → Bool
  | .text _ => false
  | .elem _ _ i _ _ => i.isSome

/-- The element's id value, if any. -/
def getAttrId : Node → Option (List Char)
  | .text _ => none
  | .elem _ _ i _ _ => i

/-- Attribute lookup, cheerio `.attr(name)` on a single element. -/
def getAttr (nm : List Char) : Node → Option (List Char)
  | .text _ => none
  | .elem _ _ _ attrs _ => (attrs.find? (fun kv => kv.1 = nm)).map (fun kv => kv.2)

mutual
/-- `.text()` of one node: concatenation of all text-node descendants. -/
def Node.textContent : Node → List Char
  | .text s => s
  | .elem _ _ _ _ cs => textContentL cs
/-- `.text()` of a child list. -/
def textContentL : List Node → List Char
  | [] => []
  | n :: ns => n.textContent ++ textContentL ns
end

/-- `.text()` of a selection: cheerio concatenates the text of every selected
element. -/
def selText (sel : List Node) : List Char :=
  match sel with
  | [] => []
  | n :: ns => n.textContent ++ selText ns

mutual
/-- Text content with every subtree rooted at a `tg` element removed; this is
`.clone().find(tg).remove().end().text()`. -/
def Node.textExcept (tg : List Char) : Node → List Char
  | .text s => s
  | .elem t _ _ _ cs => if t = tg then [] else textExceptL tg cs
/-- `textExcept` over a child list. -/
def textExceptL (tg : List Char) : List Node → List Char
  | [] => []
  | n :: ns => n.textExcept tg ++ textExceptL tg ns
end

mutual
/-- Proper descendants of a node in document (pre)order. -/
def Node.descendants : Node → List Node
  | .text _ => []
  | .elem _ _ _ _ cs => descendantsL cs
/-- Descendant list of a forest: each root followed by its descendants. -/
def descendantsL : List Node → List Node
  | [] => []
  | n :: ns => n :: (n.descendants ++ descendantsL ns)
end

/-- cheerio `ctx.find(selector)` for a simple selector: proper descendants
matching `p`, in document order. -/
def findAll (p : Node → Bool) (n : Node) : List Node :=
  n.descendants.filter p

/-- Document-level `$(selector)`: all elements of the parsed document.  The
`root` node stands for cheerio's document wrapper (the `html`/`body` chrome,
which carries no classes or ids on real pages), so a document-wide selection
is a filter over its proper descendants. -/
def docSelect (p : Node → Bool) (root : Node) : List Node :=
  root.descendants.filter p

mutual
/-- Helper for a descendant-combinator selector `p q` rooted at a context
node: collect nodes matching `q` that have an ancestor matching `p` strictly
inside the context.  `inside` records whether such an ancestor has been seen;
duplicates are impossible because each node is visited once (this matches
cheerio's identity-deduplicated selections). -/
def fuNode (p q : Node → Bool) (inside : Bool) : Node → List Node
  | .text _ => []
  | .elem t cls i a cs =>
    (if inside && q (.elem t cls i a cs) then [Node.elem t cls i a cs] else []) ++
      fuList p q (inside || p (.elem t cls i a cs)) cs
/-- `fuNode` over a child list. -/
def fuList (p q : Node → Bool) (inside : Bool) : List Node → List Node
  | [] => []
  | n :: ns => fuNode p q inside n ++ fuList p q inside ns
end

/-- cheerio `ctx.find('P Q')` (descendant combinator), and equally
`ctx.find(P).find(Q)`: `q`-matching proper descendants of a `p`-matching
ancestor below the context node. -/
def findUnder (p q : Node → Bool) : Node → List Node
  | .text _ => []
  | .elem _ _ _ _ cs => fuList p q false cs

/-! ## WordReference extractor (src/scrapers/wordreference.js lines 81-180) -/

/-- A target-language meaning of a WordReference translation row. -/
structure WRMeaning where
  word : List Char
  pos : List Char
  sense : List Char
deriving DecidableEq

/-- The source word of a WordReference translation row. -/
structure WRWord where
  word : List Char
  pos : List Char
deriving DecidableEq

/-- An example phrase with its renderings. -/
structure WRExample where
  phrase : List Char
  translations : List (List Char)
deriving DecidableEq

/-- One translation entry of a WordReference section. -/
structure WRTranslation where
  word : WRWord
  definition : List Char
  meanings : List WRMeaning
  examples : List WRExample
deriving DecidableEq

/-- One `table.WRD` section. -/
structure WRSection where
  title : List Char
  translations : List WRTranslation
deriving DecidableEq

/-- The result record built by `processHTML`. -/
structure WRResult where
  inputWord : List Char
  sections : List WRSection
  audioLinks : List (List Char)
  source : List Char
  timestamp : List Char
deriving DecidableEq

/-- The three-character separator the source file writes in
`exampleText.split('...')` (src/scrapers/wordreference.js line 134): the
mojibake rendering of the arrow U+21D2, namely U+00E2, U+2021, U+2019. -/
def exampleSep : List Char := [Char.ofNat 0xE2, Char.ofNat 0x2021, Char.ofNat 0x2019]

/-- JS `String.prototype.split(sep)` for a non-empty separator, fuelled for
structural recursion: `acc` is the current piece, reversed. -/
def splitOnSeqGo (sep : List Char) : Nat → List Char → List Char → List (List Char)
  | _, acc, [] => [acc.reverse]
  | 0, acc, rest => [acc.reverse ++ rest]
  | fuel + 1, acc, c :: t =>
    if sep.isPrefixOf (c :: t) then
      acc.reverse :: splitOnSeqGo sep fuel [] ((c :: t).drop sep.length)
    else splitOnSeqGo sep fuel acc t

/-- JS `String.prototype.split(sep)`. -/
def splitOnSeq (sep l : List Char) : List (List Char) :=
  splitOnSeqGo sep l.length [] l

/-- `td.FrWrd` cell selector. -/
def isFrCell (n : Node) : Bool := isTag ("td".toList) n && hasClass ("FrWrd".toList) n

/-- `td.ToWrd` cell selector. -/
def isToCell (n : Node) : Bool := isTag ("td".toList) n && hasClass ("ToWrd".toList) n

/-- `processWRDTable` (src/scrapers/wordreference.js lines 102-159). -/
def processWRDTable (tb : Node) : WRSection :=
  let titleRows := findAll (fun n => isTag ("tr".toList) n && hasClass ("wrtopsection".toList) n) tb
  let title := match titleRows.head? with
    | some r => trimWS r.textContent
    | none => []
  let rows := findAll
    (fun n => isTag ("tr".toList) n &&
      (hasClass ("even".toList) n || hasClass ("odd".toList) n) && hasId n) tb
  let translations := rows.filterMap (fun row =>
    let fromCells := findAll isFrCell row
    let toCells := findAll isToCell row
    if fromCells.isEmpty || toCells.isEmpty then none
    else
      let fromText := trimWS ((fromCells.map (Node.textExcept ("em".toList))).flatten)
      let fromPos := trimWS (selText (findUnder isFrCell (isTag ("em".toList)) row))
      let toText := trimWS ((toCells.map (Node.textExcept ("em".toList))).flatten)
      let toPos := trimWS (selText (findUnder isToCell (isTag ("em".toList)) row))
      let definition := trimWS (selText (findUnder isFrCell (hasClass ("tooltip".toList)) row))
      let exampleCells := findAll (fun n => isTag ("td".toList) n && hasClass ("Ex".toList) n) row
      let examples :=
        if exampleCells.isEmpty then []
        else
          match splitOnSeq exampleSep (trimWS (selText exampleCells)) with
          | [a, b] => [WRExample.mk (trimWS a) [trimWS b]]
          | _ => []
      some (WRTranslation.mk (WRWord.mk fromText fromPos) definition
        [WRMeaning.mk toText toPos []] examples))
  WRSection.mk title translations

/-- A quote character, `['"]` in the audio regexes. -/
def isQuote (c : Char) : Bool := c = '\'' || c = '"'

/-- Attempt the regex `audioFiles\s*=\s*\{([^}]+)\}` at the current position:
literal `audioFiles`, optional whitespace, `=`, optional whitespace, `{`,
then a non-empty run of non-`}` characters (the capture) closed by `}`. -/
def tryAudioBlockAt (l : List Char) : Option (List Char) :=
  if ("audioFiles".toList).isPrefixOf l then
    let r1 := (l.drop 10).dropWhile isJsWS
    match r1 with
    | '=' :: r2 =>
      let r3 := r2.dropWhile isJsWS
      match r3 with
      | '{' :: r4 =>
        let cap := r4.takeWhile (fun c => c ≠ '}')
        if cap ≠ [] ∧ (r4.drop cap.length).head? = some '}' then some cap else none
      | _ => none
    | _ => none
  else none

/-- First match of `audioFiles\s*=\s*\{([^}]+)\}` in the raw HTML
(`html.match(audioFilesRegex)`, src/scrapers/wordreference.js line 164):
scan positions left to right. -/
def findAudioBlock : List Char → Option (List Char)
  | [] => none
  | c :: t =>
    match tryAudioBlockAt (c :: t) with
    | some cap => some cap
    | none => findAudioBlock t

/-- Inside a quote-free segment `S`, the body `[^'"]*\/audio\/[^'"]*\.mp3` of
the inner audio regex matches up to the end of the last `.mp3` occurrence
that is preceded (by at least the 7 characters of `/audio/`) by an `/audio/`
occurrence; the backtracking of the two greedy stars selects exactly that
endpoint. -/
def audioBodyEnd (S : List Char) : Option Nat :=
  ((List.range (S.length + 1)).filter (fun c =>
    (".mp3".toList).isPrefixOf (S.drop c) &&
      (List.range (S.length + 1)).any (fun b =>
        decide (b + 7 ≤ c) && ("/audio/".toList).isPrefixOf (S.drop b)))).getLast?

/-- One step of the global inner regex
`/['"]([^'"]*\/audio\/[^'"]*\.mp3)['"]?/g` after an opening quote: returns
the stripped match (`match.replace(/['"]/g,'')`, which is the capture group)
and the number of characters consumed after the opening quote. -/
def audioMatchAfterQuote (t : List Char) : Option (List Char × Nat) :=
  let S := t.takeWhile (fun c => !isQuote c)
  match audioBodyEnd S with
  | some e =>
    let cap := S.take (e + 4)
    let closing := match (t.drop (e + 4)).head? with
      | some c => if isQuote c then 1 else 0
      | none => 0
    some (cap, e + 4 + closing)
  | none => none

/-- The list of (quote-stripped) matches of the global inner audio regex over
the captured block content (`audioContent.match(...)` followed by
`match.replace(/['"]/g,'')`, lines 168-171). -/
def scanAudioMatches : Nat → List Char → List (List Char)
  | 0, _ => []
  | _, [] => []
  | fuel + 1, c :: t =>
    if isQuote c then
      match audioMatchAfterQuote t with
      | some (cap, consumed) => cap :: scanAudioMatches fuel (t.drop consumed)
      | none => scanAudioMatches fuel t
    else scanAudioMatches fuel t

/-- The push-unless-present loop of lines 170-175. -/
def dedupePush (ms : List (List Char)) : List (List Char) :=
  ms.foldl (fun acc m => if m ∈ acc then acc else acc ++ [m]) []

/-- `extractAudioFiles` (src/scrapers/wordreference.js lines 161-180):
regex extraction over the raw HTML text, with deduplication.  Note that this
function, the one `processHTML` calls, performs no absolute-URL prefixing. -/
def extractAudioFiles (html : List Char) : List (List Char) :=
  match findAudioBlock html with
  | none => []
  | some content => dedupePush (scanAudioMatches content.length content)

/-- `processHTML` (src/scrapers/wordreference.js lines 81-100).  The raw HTML
string and its parse are both inputs (cheerio.load is the external parser);
`nowIso` is the value `new Date().toISOString()` read at call time. -/
def processHTML (html : List Char) (dom : Node) (inputWord nowIso : List Char) : WRResult :=
  let sections :=
    ((docSelect (fun n => isTag ("table".toList) n && hasClass ("WRD".toList) n) dom).map
        processWRDTable).filter
      (fun s => s.title ≠ [] ∨ s.translations ≠ [])
  WRResult.mk inputWord sections (extractAudioFiles html) ("wordreference".toList) nowIso

/-! ## Linguee extractor (src/scrapers/wordreference.js lines 662-842,
the revision with the fallback pass) -/

/-- A translation candidate of a Linguee lemma block. -/
structure LgCandidate where
  text : List Char
  type : List Char
  frequency : List Char
  verified : Bool
deriving DecidableEq

/-- A context example of a Linguee lemma block. -/
structure LgContext where
  source : List Char
  target : List Char
  verified : Bool
  external : Bool
deriving DecidableEq

/-- One retained Linguee lemma block (`from` is spelled `fromW`: `from` is a
Lean keyword). -/
structure LgEntry where
  fromW : List Char
  fromType : List Char
  audio : Option (List Char)
  translations : List LgCandidate
  contexts : List LgContext
deriving DecidableEq

/-- The result record of `processLingueeHTML`. -/
structure LgResult where
  source : List Char
  inputWord : List Char
  fromLang : List Char
  toLang : List Char
  translations : List LgEntry
deriving DecidableEq

/-- `extractFrequency` (src/scrapers/wordreference.js lines 820-831): look
for `.tag_c` under the element; bucket by text-contains checks. -/
def extractFrequency (el : Node) : List Char :=
  let freqSel := findAll (hasClass ("tag_c".toList)) el
  if freqSel.isEmpty then "unknown".toList
  else
    let freqText := lowerStr (selText freqSel)
    if occursIn ("muy frecuente".toList) freqText ||
        occursIn ("uso muy frecuente".toList) freqText then "high".toList
    else if occursIn ("frecuente".toList) freqText then "medium".toList
    else if occursIn ("menos frecuente".toList) freqText then "low".toList
    else "unknown".toList

/-- Attempt the regex `playSound\([^,]+,\s*"([^"]+)"` at the current
position. -/
def tryPlaySoundAt (l : List Char) : Option (List Char) :=
  if ("playSound(".toList).isPrefixOf l then
    let r1 := l.drop 10
    let arg := r1.takeWhile (fun c => c ≠ ',')
    if arg = [] then none
    else
      match r1.drop arg.length with
      | ',' :: r2 =>
        match r2.dropWhile isJsWS with
        | '"' :: r3 =>
          let cap := r3.takeWhile (fun c => c ≠ '"')
          if cap ≠ [] ∧ (r3.drop cap.length).head? = some '"' then some cap else none
        | _ => none
      | _ => none
  else none

/-- First match of `playSound\([^,]+,\s*"([^"]+)"` in an onclick string
(src/scrapers/wordreference.js line 692). -/
def findPlaySound : List Char → Option (List Char)
  | [] => none
  | c :: t =>
    match tryPlaySoundAt (c :: t) with
    | some cap => some cap
    | none => findPlaySound t

/-- The audio-URL extraction of lines 683-697: an `<audio>`-descendant
`source[type="audio/mpeg"]` element's `src`, else the capture of the
playSound pattern in the onclick of an `.audio[onclick]` element. -/
def lemmaAudioUrl (lem : Node) : Option (List Char) :=
  let srcSel := findUnder (isTag ("audio".toList))
    (fun n => isTag ("source".toList) n &&
      decide (getAttr ("type".toList) n = some ("audio/mpeg".toList)))
    lem
  match srcSel.head? with
  | some el => getAttr ("src".toList) el
  | none =>
    let clickSel := findAll
      (fun n => hasClass ("audio".toList) n && (getAttr ("onclick".toList) n).isSome) lem
    match clickSel.head? with
    | some el =>
      match getAttr ("onclick".toList) el with
      | some onclickContent => findPlaySound onclickContent
      | none => none
    | none => none

/-- The `audio` field of a Linguee entry (line 705): prefix the site domain
unless the URL already starts with `http`. -/
def lemmaAudioField (lem : Node) : Option (List Char) :=
  (lemmaAudioUrl lem).map (fun u =>
    if ("http".toList).isPrefixOf u then u else "https://www.linguee.com".toList ++ u)

/-- Processing of one `.lemma` block (lines 676-748): `none` when the block
is skipped (empty source word) or discarded (no candidates and no
contexts). -/
def lemmaEntry (lem : Node) : Option LgEntry :=
  let sourceWord := trimWS
    (((findUnder (hasClass ("tag_lemma".toList)) (hasClass ("dictLink".toList)) lem).head?.map
        Node.textContent).getD [])
  if sourceWord = [] then none
  else
    let wordType := trimWS
      (((findAll (hasClass ("tag_wordtype".toList)) lem).head?.map Node.textContent).getD [])
    let cands := (findAll (hasClass ("translation".toList)) lem).filterMap (fun t =>
      let translatedText := trimWS
        (selText (findUnder (hasClass ("tag_trans".toList)) (hasClass ("dictLink".toList)) t))
      if translatedText ≠ [] ∧ translatedText ≠ sourceWord then
        some (LgCandidate.mk translatedText
          (trimWS (selText (findAll (hasClass ("tag_type".toList)) t)))
          (extractFrequency t)
          (!(findAll (hasClass ("icon_verified".toList)) t).isEmpty))
      else none)
    let ctxs := (findAll (hasClass ("example".toList)) lem).filterMap (fun ex =>
      let sourceText := trimWS (selText (findAll (hasClass ("tag_s".toList)) ex))
      let targetText := trimWS (selText (findAll (hasClass ("tag_t".toList)) ex))
      if sourceText ≠ [] ∧ targetText ≠ [] then
        some (LgContext.mk sourceText targetText
          (!(findAll (hasClass ("icon_verified".toList)) ex).isEmpty)
          (!(findAll (hasClass ("icon_external".toList)) ex).isEmpty))
      else none)
    if cands ≠ [] ∨ ctxs ≠ [] then
      some (LgEntry.mk sourceWord wordType (lemmaAudioField lem) cands ctxs)
    else none

/-- The `.lemma` selection of the primary pass (lines 672-676): scoped to
`#dictionary` when such an element exists, else the whole document
(`$('body')`). -/
def lingueeLemmas (root : Node) : List Node :=
  if (docSelect (fun n => decide (getAttrId n = some ("dictionary".toList))) root).isEmpty
  then docSelect (hasClass ("lemma".toList)) root
  else findUnder (fun n => decide (getAttrId n = some ("dictionary".toList)))
    (hasClass ("lemma".toList)) root

/-- The retained blocks of the primary Linguee pass. -/
def lingueePrimary (root : Node) : List LgEntry :=
  (lingueeLemmas root).filterMap lemmaEntry

/-- `.lemma, .translation_group, .meaninggroup` — the container classes the
fallback's `closest` looks for (line 777). -/
def isFbContainer (n : Node) : Bool :=
  hasClass ("lemma".toList) n || hasClass ("translation_group".toList) n ||
    hasClass ("meaninggroup".toList) n

/-- The per-link body of the fallback loop (lines 771-808): `anc` is the
ancestor chain, nearest first, so `(self :: anc).find? isFbContainer` is
`$link.closest('.lemma, .translation_group, .meaninggroup')`. -/
def fbEntryAt (w : List Char) (anc : List Node) (self : Node) : Option LgEntry :=
  if hasClass ("dictLink".toList) self then
    let txt := trimWS self.textContent
    if txt ≠ [] ∧ occursIn (lowerStr w) (lowerStr txt) then
      match (self :: anc).find? isFbContainer with
      | some cont =>
        let cands := (findAll (hasClass ("dictLink".toList)) cont).filterMap (fun l =>
          let tTxt := trimWS l.textContent
          if tTxt ≠ [] ∧ tTxt ≠ txt then
            some (LgCandidate.mk tTxt ("unknown".toList) ("unknown".toList) false)
          else none)
        if cands ≠ [] then
          some (LgEntry.mk txt ("unknown".toList) none cands [])
        else none
      | none => none
    else none
  else none

mutual
/-- Document-order traversal of the fallback loop over `$('.dictLink')`. -/
def fbNode (w : List Char) (anc : List Node) : Node → List LgEntry
  | .text _ => []
  | .elem t cls i a cs =>
    (fbEntryAt w anc (.elem t cls i a cs)).toList ++
      fbList w (Node.elem t cls i a cs :: anc) cs
/-- `fbNode` over a child list. -/
def fbList (w : List Char) (anc : List Node) : List Node → List LgEntry
  | [] => []
  | n :: ns => fbNode w anc n ++ fbList w anc ns
end

/-- The fallback loop over the document: every element of the document (the
proper descendants of the wrapper), in document order, with its ancestor
chain. -/
def fbDoc (w : List Char) : Node → List LgEntry
  | .text _ => []
  | .elem t cls i a cs => fbList w [Node.elem t cls i a cs] cs

/-- `tryFallbackProcessing` (src/scrapers/wordreference.js lines 761-811). -/
def tryFallbackProcessing (root : Node) (inputWord fromLang toLang : List Char) : LgResult :=
  LgResult.mk ("linguee".toList) inputWord fromLang toLang (fbDoc inputWord root)

/-- `processLingueeHTML` (src/scrapers/wordreference.js lines 662-757): the
primary pass over `.lemma` blocks, falling back to `tryFallbackProcessing`
when it retains nothing. -/
def processLingueeHTML (root : Node) (inputWord fromLang toLang : List Char) : LgResult :=
  let primary := lingueePrimary root
  if primary.isEmpty then tryFallbackProcessing root inputWord fromLang toLang
  else LgResult.mk ("linguee".toList) inputWord fromLang toLang primary

/-- Two adjacent whitespace characters occur somewhere in the string. -/
def hasAdjWS : List Char → Bool
  | a :: b :: t => (isJsWS a && isJsWS b) || hasAdjWS (b :: t)
  | _ => false

/-- The string has neither leading nor trailing whitespace. -/
def noEdgeWS (l : List Char) : Bool :=
  (match l.head? with
    | some c => !isJsWS c
    | none => true) &&
  (match l.getLast? with
    | some c => !isJsWS c
    | none => true)

/-- The per-link guard of the fallback loop (line 775): a `.dictLink` element
whose non-empty trimmed text contains the input word case-insensitively. -/
def fbLinkMatches (w : List Char) (n : Node) : Bool :=
  hasClass ("dictLink".toList) n &&
    (!(trimWS n.textContent).isEmpty &&
      occursIn (lowerStr w) (lowerStr (trimWS n.textContent)))

/-! ## Concrete documents used by the counterexamples and witnesses -/

/-- A document wrapper with no content. -/
def emptyBody : Node := .elem ("body".toList) [] none [] []

/-- A WordReference table whose single qualifying row has empty `FrWrd` and
`ToWrd` cells: the extractor still emits a translation entry for it. -/
def wrEmptyRowDoc : Node :=
  .elem ("body".toList) [] none []
    [ .elem ("table".toList) [("WRD".toList)] none []
        [ .elem ("tr".toList) [("even".toList)] (some ("r1".toList)) []
            [ .elem ("td".toList) [("FrWrd".toList)] none [] [],
              .elem ("td".toList) [("ToWrd".toList)] none [] [] ] ] ]

/-- A Linguee lemma block for `casa` with one self-referential candidate and
one genuine candidate (`house`), used by the C1 witness. -/
def lgPopulatedDoc : Node :=
  .elem ("body".toList) [] none []
    [ .elem ("div".toList) [("lemma".toList)] none []
        [ .elem ("span".toList) [("tag_lemma".toList)] none []
            [ .elem ("a".toList) [("dictLink".toList)] none [] [.text ("casa".toList)] ],
          .elem ("div".toList) [("translation".toList)] none []
            [ .elem ("span".toList) [("tag_trans".toList)] none []
                [ .elem ("a".toList) [("dictLink".toList)] none [] [.text ("house".toList)] ] ] ] ]

/-- The Linguee entry `lgPopulatedDoc` produces. -/
def lgPopulatedEntry : LgEntry :=
  LgEntry.mk ("casa".toList) [] none
    [LgCandidate.mk ("house".toList) [] ("unknown".toList) false] []

/-- A Linguee document whose primary pass retains one block (C5 witness). -/
def lgPrimaryDoc : Node :=
  .elem ("body".toList) [] none []
    [ .elem ("div".toList) [("lemma".toList)] none []
        [ .elem ("span".toList) [("tag_lemma".toList)] none []
            [ .elem ("a".toList) [("dictLink".toList)] none [] [.text ("sol".toList)] ],
          .elem ("div".toList) [("translation".toList)] none []
            [ .elem ("span".toList) [("tag_trans".toList)] none []
                [ .elem ("a".toList) [("dictLink".toList)] none [] [.text ("sun".toList)] ] ] ] ]

/-- A Linguee lemma block with a source word equal to one candidate and a
different second candidate (C6 witness). -/
def lgSelfRefDoc : Node :=
  .elem ("body".toList) [] none []
    [ .elem ("div".toList) [("lemma".toList)] none []
        [ .elem ("span".toList) [("tag_lemma".toList)] none []
            [ .elem ("a".toList) [("dictLink".toList)] none [] [.text ("luna".toList)] ],
          .elem ("div".toList) [("translation".toList)] none []
            [ .elem ("span".toList) [("tag_trans".toList)] none []
                [ .elem ("a".toList) [("dictLink".toList)] none [] [.text ("luna".toList)] ] ],
          .elem ("div".toList) [("translation".toList)] none []
            [ .elem ("span".toList) [("tag_trans".toList)] none []
                [ .elem ("a".toList) [("dictLink".toList)] none [] [.text ("moon".toList)] ] ] ] ]

/-- The Linguee entry `lgSelfRefDoc` produces: only the `moon` candidate. -/
def lgSelfRefEntry : LgEntry :=
  LgEntry.mk ("luna".toList) [] none
    [LgCandidate.mk ("moon".toList) [] ("unknown".toList) false] []

/-- A document with zero `.lemma` elements but a `.translation_group`
containing two dictionary links; the fallback pass salvages a translation
from it (C8 counterexample). -/
def lgNoLemmaDoc : Node :=
  .elem ("body".toList) [] none []
    [ .elem ("div".toList) [("translation_group".toList)] none []
        [ .elem ("a".toList) [("dictLink".toList)] none [] [.text ("perro".toList)],
          .elem ("a".toList) [("dictLink".toList)] none [] [.text ("dog".toList)] ] ]

/-- Raw HTML whose embedded audio map holds one relative audio path. -/
def audioHtml : List Char := "audioFiles = \x7b'/audio/a.mp3'\x7d".toList

/-! ## Substring lemmas -/

theorem isPrefixOf_iff_exists (a b : List Char) :
    a.isPrefixOf b = true ↔ ∃ t, b = a ++ t := by
  induction a generalizing b with
  | nil => simp [List.isPrefixOf]
  | cons x xs ih =>
    cases b with
    | nil => simp [List.isPrefixOf]
    | cons y ys =>
      simp only [List.isPrefixOf, Bool.and_eq_true, beq_iff_eq, ih, List.cons_append,
        List.cons.injEq]
      constructor
      · rintro ⟨hxy, t, ht⟩; exact ⟨t, hxy.symm, ht⟩
      · rintro ⟨t, hxy, ht⟩; exact ⟨hxy.symm, t, ht⟩

theorem occursIn_iff (a b : List Char) :
    occursIn a b = true ↔ ∃ l r, b = l ++ (a ++ r) := by
  induction b with
  | nil =>
    simp only [occursIn, isPrefixOf_iff_exists]
    constructor
    · rintro ⟨t, ht⟩; exact ⟨[], t, ht⟩
    · rintro ⟨l, r, h⟩
      rcases List.append_eq_nil.mp h.symm with ⟨_, h2⟩
      exact ⟨r, h2.symm⟩
  | cons c t ih =>
    simp only [occursIn, Bool.or_eq_true, isPrefixOf_iff_exists, ih]
    constructor
    · rintro (⟨r, hr⟩ | ⟨l, r, hlr⟩)
      · exact ⟨[], r, hr⟩
      · exact ⟨c :: l, r, by simp [hlr]⟩
    · rintro ⟨l, r, hlr⟩
      cases l with
      | nil => exact Or.inl ⟨r, by simpa using hlr⟩
      | cons x xs =>
        rw [List.cons_append] at hlr
        exact Or.inr ⟨xs, r, (List.cons.injEq _ _ _ _ ▸ hlr).2⟩

theorem occursIn_trans {a b c : List Char} (h1 : occursIn a b = true)
    (h2 : occursIn b c = true) : occursIn a c = true := by
  rcases (occursIn_iff a b).mp h1 with ⟨l1, r1, hb⟩
  rcases (occursIn_iff b c).mp h2 with ⟨l2, r2, hc⟩
  refine (occursIn_iff a c).mpr ⟨l2 ++ l1, r1 ++ r2, ?_⟩
  subst hb; simp [hc]

/-- C10: `extractFrequency` returns one of `unknown`, `high`, `medium` and
never `low`: any frequency text containing `menos frecuente` also contains
`frecuente`, so the earlier medium check always fires first and the `low`
branch is unreachable. -/
theorem extractFrequency_never_low (el : Node) :
    extractFrequency el ≠ "low".toList ∧
    (extractFrequency el = "unknown".toList ∨ extractFrequency el = "high".toList ∨
      extractFrequency el = "medium".toList) := by
  have key : ∀ s : List Char, occursIn ("menos frecuente".toList) s = true →
      occursIn ("frecuente".toList) s = true :=
    fun s h => occursIn_trans (by decide) h
  simp only [extractFrequency]
  split_ifs with h0 h1 h2 h3
  · exact ⟨by decide, Or.inl rfl⟩
  · exact ⟨by decide, Or.inr (Or.inl rfl)⟩
  · exact ⟨by decide, Or.inr (Or.inr rfl)⟩
  · exact absurd (key _ h3) h2
  · exact ⟨by decide, Or.inl rfl⟩

/-! ## Whitespace lemmas for `cleanText` -/

theorem mem_collapseAux {c : Char} : ∀ {b : Bool} {l : List Char},
    c ∈ collapseAux b l → c ∈ l ∨ c = ' '
  | _, [], h => by simp [collapseAux] at h
  | b, x :: t, h => by
    by_cases hx : isJsWS x
    · by_cases hb : b
      · subst hb
        simp only [collapseAux, hx, if_pos, if_true] at h
        rcases mem_collapseAux h with h1 | h1
        · exact Or.inl (List.mem_cons_of_mem _ h1)
        · exact Or.inr h1
      · simp only [Bool.not_eq_true] at hb; subst hb
        simp only [collapseAux, hx, if_pos, Bool.false_eq_true, if_false, List.mem_cons] at h
        rcases h with h1 | h1
        · exact Or.inr h1
        · rcases mem_collapseAux h1 with h2 | h2
          · exact Or.inl (List.mem_cons_of_mem _ h2)
          · exact Or.inr h2
    · simp only [collapseAux, hx, Bool.false_eq_true, if_false, List.mem_cons] at h
      rcases h with h1 | h1
      · exact Or.inl (h1 ▸ List.mem_cons_self _ _)
      · rcases mem_collapseAux h1 with h2 | h2
        · exact Or.inl (List.mem_cons_of_mem _ h2)
        · exact Or.inr h2

theorem ws_mem_collapseAux {c : Char} : ∀ {b : Bool} {l : List Char},
    c ∈ collapseAux b l → isJsWS c = true → c = ' '
  | _, [], h, _ => by simp [collapseAux] at h
  | b, x :: t, h, hws => by
    by_cases hx : isJsWS x
    · by_cases hb : b
      · subst hb
        simp only [collapseAux, hx, if_pos, if_true] at h
        exact ws_mem_collapseAux h hws
      · simp only [Bool.not_eq_true] at hb; subst hb
        simp only [collapseAux, hx, if_pos, Bool.false_eq_true, if_false, List.mem_cons] at h
        rcases h with h1 | h1
        · exact h1
        · exact ws_mem_collapseAux h1 hws
    · simp only [collapseAux, hx, Bool.false_eq_true, if_false, List.mem_cons] at h
      rcases h with h1 | h1
      · exact absurd (h1 ▸ hws) (by simp [hx])
      · exact ws_mem_collapseAux h1 hws

theorem head_collapseAux_true {c : Char} : ∀ {l : List Char},
    (collapseAux true l).head? = some c → isJsWS c = false
  | [], h => by simp [collapseAux] at h
  | x :: t, h => by
    by_cases hx : isJsWS x
    · simp only [collapseAux, hx, if_pos, if_true] at h
      exact head_collapseAux_true h
    · simp only [collapseAux, hx, Bool.false_eq_true, if_false, List.head?_cons,
        Option.some.injEq] at h
      simpa [← h] using hx

theorem hasAdjWS_collapseAux : ∀ (b : Bool) (l : List Char),
    hasAdjWS (collapseAux b l) = false
  | _, [] => by simp [collapseAux, hasAdjWS]
  | b, x :: t => by
    by_cases hx : isJsWS x
    · by_cases hb : b
      · subst hb
        simp only [collapseAux, hx, if_pos, if_true]
        exact hasAdjWS_collapseAux true t
      · simp only [Bool.not_eq_true] at hb; subst hb
        simp only [collapseAux, hx, if_pos, Bool.false_eq_true, if_false]
        cases hX : collapseAux true t with
        | nil => simp [hasAdjWS]
        | cons y ys =>
          have hy : isJsWS y = false := head_collapseAux_true (l := t) (by rw [hX]; rfl)
          have := hasAdjWS_collapseAux true t
          rw [hX] at this
          simp [hasAdjWS, hy, this]
    · simp only [collapseAux, hx, Bool.false_eq_true, if_false]
      cases hX : collapseAux false t with
      | nil => simp [hasAdjWS]
      | cons y ys =>
        have := hasAdjWS_collapseAux false t
        rw [hX] at this
        simp [hasAdjWS, hx, this]

theorem hasAdjWS_append_right {s : List Char} (t : List Char)
    (h : hasAdjWS s = true) : hasAdjWS (t ++ s) = true := by
  induction t with
  | nil => simpa using h
  | cons x xs ih =>
    cases hxs : xs ++ s with
    | nil =>
      rcases List.append_eq_nil.mp hxs with ⟨_, h2⟩
      subst h2; simp [hasAdjWS] at h
    | cons y ys =>
      rw [List.cons_append, hxs]
      rw [hxs] at ih
      simp [hasAdjWS, ih]

theorem hasAdjWS_iff {l : List Char} : hasAdjWS l = true ↔
    ∃ l1 a b l2, l = l1 ++ a :: b :: l2 ∧ isJsWS a = true ∧ isJsWS b = true := by
  induction l with
  | nil =>
    simp only [hasAdjWS, Bool.false_eq_true, false_iff]
    rintro ⟨l1, a, b, l2, h, _, _⟩
    exact absurd h (by simp)
  | cons x t ih =>
    cases t with
    | nil =>
      simp only [hasAdjWS, Bool.false_eq_true, false_iff]
      rintro ⟨l1, a, b, l2, h, _, _⟩
      cases l1 with
      | nil => simp at h
      | cons u us =>
        simp only [List.cons_append, List.cons.injEq] at h
        exact absurd h.2 (by simp)
    | cons y ys =>
      simp only [hasAdjWS, Bool.or_eq_true, Bool.and_eq_true, ih]
      constructor
      · rintro (⟨ha, hb⟩ | ⟨l1, a, b, l2, h, ha, hb⟩)
        · exact ⟨[], x, y, ys, by simp, ha, hb⟩
        · exact ⟨x :: l1, a, b, l2, by simp [h], ha, hb⟩
      · rintro ⟨l1, a, b, l2, h, ha, hb⟩
        cases l1 with
        | nil =>
          simp only [List.nil_append, List.cons.injEq] at h
          rcases h with ⟨hxa, hyb, _⟩
          exact Or.inl ⟨by rw [hxa]; exact ha, by rw [hyb]; exact hb⟩
        | cons u us =>
          simp only [List.cons_append, List.cons.injEq] at h
          exact Or.inr ⟨us, a, b, l2, h.2, ha, hb⟩

theorem hasAdjWS_reverse_true {l : List Char} (h : hasAdjWS l = true) :
    hasAdjWS l.reverse = true := by
  rcases hasAdjWS_iff.mp h with ⟨l1, a, b, l2, hl, ha, hb⟩
  subst hl
  have : (l1 ++ a :: b :: l2).reverse = l2.reverse ++ b :: a :: l1.reverse := by
    simp [List.reverse_append]
  rw [this]
  exact hasAdjWS_append_right _ (by simp [hasAdjWS, ha, hb])

theorem hasAdjWS_reverse {l : List Char} : hasAdjWS l.reverse = hasAdjWS l := by
  by_cases h : hasAdjWS l = true
  · rw [h]; exact hasAdjWS_reverse_true h
  · rw [Bool.not_eq_true] at h
    rw [h]
    by_contra hrev
    rw [Bool.not_eq_false] at hrev
    have := hasAdjWS_reverse_true hrev
    rw [List.reverse_reverse, h] at this
    exact absurd this (by simp)

theorem dropWhile_exists (p : Char → Bool) (l : List Char) :
    ∃ t, l = t ++ l.dropWhile p := by
  induction l with
  | nil => exact ⟨[], rfl⟩
  | cons x xs ih =>
    by_cases hx : p x
    · rcases ih with ⟨t, ht⟩
      exact ⟨x :: t, by simp [List.dropWhile, hx, ← ht]⟩
    · exact ⟨[], by simp [List.dropWhile, hx]⟩

theorem hasAdjWS_dropWhile_false {l : List Char} (h : hasAdjWS l = false) :
    hasAdjWS (l.dropWhile isJsWS) = false := by
  rcases dropWhile_exists isJsWS l with ⟨t, ht⟩
  by_contra hd
  rw [Bool.not_eq_false] at hd
  have := hasAdjWS_append_right t hd
  rw [← ht, h] at this
  exact absurd this (by simp)

theorem hasAdjWS_trimWS_false {l : List Char} (h : hasAdjWS l = false) :
    hasAdjWS (trimWS l) = false := by
  unfold trimWS
  rw [hasAdjWS_reverse]
  exact hasAdjWS_dropWhile_false (by rw [hasAdjWS_reverse]; exact hasAdjWS_dropWhile_false h)

theorem head_dropWhile_not {p : Char → Bool} {c : Char} : ∀ {l : List Char},
    (l.dropWhile p).head? = some c → p c = false
  | [], h => by simp [List.dropWhile] at h
  | x :: t, h => by
    by_cases hx : p x
    · simp only [List.dropWhile, hx, if_true] at h
      exact head_dropWhile_not h
    · simp only [List.dropWhile, hx, Bool.false_eq_true, if_false, List.head?_cons,
        Option.some.injEq] at h
      simpa [← h] using hx

theorem dropWhile_eq_self {p : Char → Bool} {l : List Char}
    (h : ∀ c, l.head? = some c → p c = false) : l.dropWhile p = l := by
  cases l with
  | nil => rfl
  | cons x t => simp [List.dropWhile, h x rfl]

theorem mem_dropWhile {p : Char → Bool} {c : Char} {l : List Char}
    (h : c ∈ l.dropWhile p) : c ∈ l := by
  rcases dropWhile_exists p l with ⟨t, ht⟩
  rw [ht]
  exact List.mem_append_right _ h

theorem mem_trimWS {c : Char} {l : List Char} (h : c ∈ trimWS l) : c ∈ l := by
  unfold trimWS at h
  rw [List.mem_reverse] at h
  have h2 := mem_dropWhile h
  rw [List.mem_reverse] at h2
  exact mem_dropWhile h2

theorem getLast?_reverse_eq (l : List Char) : l.reverse.getLast? = l.head? := by
  cases l with
  | nil => rfl
  | cons x t => simp [List.reverse_cons, List.getLast?_concat]

theorem head?_reverse_eq (l : List Char) : l.reverse.head? = l.getLast? := by
  have := getLast?_reverse_eq l.reverse
  rw [List.reverse_reverse] at this
  exact this.symm

theorem trimWS_head_not_ws {l : List Char} {c : Char}
    (h : (trimWS l).head? = some c) : isJsWS c = false := by
  unfold trimWS at h
  rw [head?_reverse_eq] at h
  rcases dropWhile_exists isJsWS ((l.dropWhile isJsWS).reverse) with ⟨t, ht⟩
  set B := (l.dropWhile isJsWS).reverse.dropWhile isJsWS with hB
  have hBne : B ≠ [] := by
    intro hnil
    rw [hnil] at h
    simp at h
  have h2 : ((l.dropWhile isJsWS).reverse).getLast? = some c := by
    rw [ht, List.getLast?_append_of_ne_nil _ hBne]
    exact h
  rw [getLast?_reverse_eq] at h2
  exact head_dropWhile_not h2

theorem trimWS_getLast_not_ws {l : List Char} {c : Char}
    (h : (trimWS l).getLast? = some c) : isJsWS c = false := by
  unfold trimWS at h
  rw [getLast?_reverse_eq] at h
  exact head_dropWhile_not h

theorem trimWS_eq_self {l : List Char}
    (h1 : ∀ c, l.head? = some c → isJsWS c = false)
    (h2 : ∀ c, l.getLast? = some c → isJsWS c = false) : trimWS l = l := by
  unfold trimWS
  rw [dropWhile_eq_self h1]
  rw [dropWhile_eq_self (fun c hc => h2 c (by rw [← head?_reverse_eq]; exact hc))]
  exact List.reverse_reverse l

theorem trimWS_idem (l : List Char) : trimWS (trimWS l) = trimWS l :=
  trimWS_eq_self (fun _ h => trimWS_head_not_ws h) (fun _ h => trimWS_getLast_not_ws h)

theorem collapseAux_eq_self : ∀ (l : List Char), hasAdjWS l = false →
    (∀ c ∈ l, isJsWS c = true → c = ' ') →
    collapseAux false l = l ∧
      ((∀ c, l.head? = some c → isJsWS c = false) → collapseAux true l = l)
  | [], _, _ => ⟨rfl, fun _ => rfl⟩
  | x :: t, hadj, hsp => by
    have hadjt : hasAdjWS t = false := by
      cases t with
      | nil => rfl
      | cons y ys =>
        by_contra hc
        rw [Bool.not_eq_false] at hc
        have : hasAdjWS (x :: y :: ys) = true := by simp [hasAdjWS, hc]
        rw [hadj] at this
        exact absurd this (by simp)
    have hspt : ∀ c ∈ t, isJsWS c = true → c = ' ' :=
      fun c hc => hsp c (List.mem_cons_of_mem _ hc)
    have ih := collapseAux_eq_self t hadjt hspt
    constructor
    · by_cases hx : isJsWS x
      · have hxsp : x = ' ' := hsp x (List.mem_cons_self _ _) hx
        simp only [collapseAux, hx, if_pos, Bool.false_eq_true, if_false, hxsp]
        have hheadt : ∀ c, t.head? = some c → isJsWS c = false := by
          intro c hc
          cases t with
          | nil => simp at hc
          | cons y ys =>
            simp only [List.head?_cons, Option.some.injEq] at hc
            by_contra hwc
            rw [Bool.not_eq_false] at hwc
            rw [← hc] at hwc
            have hat : hasAdjWS (x :: y :: ys) = true := by simp [hasAdjWS, hx, hwc]
            rw [hat] at hadj
            exact absurd hadj (by simp)
        rw [ih.2 hheadt]
        rw [if_pos (show isJsWS ' ' = true by decide)]
      · simp only [collapseAux, hx, Bool.false_eq_true, if_false]
        rw [ih.1]
    · intro hhead
      have hx : isJsWS x = false := hhead x rfl
      simp only [collapseAux, hx, Bool.false_eq_true, if_false]
      rw [ih.1]

/-- Every character of `cleanText x` passes the allow-list (whitespace
survivors are spaces, which are allowed). -/
theorem cleanText_all_allowed (x : List Char) :
    (cleanText x).all allowedChar = true := by
  rw [List.all_eq_true]
  intro c hc
  unfold cleanText at hc
  have := mem_trimWS hc
  exact (List.mem_filter.mp this).2

/-- Every whitespace character of `cleanText x` is a plain space. -/
theorem cleanText_ws_space {x : List Char} {c : Char} (hc : c ∈ cleanText x)
    (hw : isJsWS c = true) : c = ' ' := by
  unfold cleanText at hc
  have h1 := (List.mem_filter.mp (mem_trimWS hc)).1
  exact ws_mem_collapseAux (mem_trimWS h1) hw

/-- On an input whose characters all pass the allow-list, the removal step is
the identity and `cleanText` reduces to collapse-then-trim. -/
theorem cleanText_of_all_allowed {y : List Char} (hy : y.all allowedChar = true) :
    cleanText y = trimWS (collapseWS y) := by
  unfold cleanText
  have hall : ∀ c ∈ trimWS (collapseWS y), allowedChar c = true := by
    intro c hc
    rcases mem_collapseAux (mem_trimWS hc) with h1 | h1
    · exact List.all_eq_true.mp hy c h1
    · rw [h1]; decide
  rw [List.filter_eq_self.mpr hall, trimWS_idem]

/-- `cleanText` is a fixpoint on any string whose characters all pass the
allow-list. -/
theorem cleanText_fixpoint_of_allowed {y : List Char} (hy : y.all allowedChar = true) :
    cleanText (cleanText y) = cleanText y := by
  rw [cleanText_of_all_allowed hy]
  set z := trimWS (collapseWS y) with hz
  have hzadj : hasAdjWS z = false := hasAdjWS_trimWS_false (hasAdjWS_collapseAux false y)
  have hzsp : ∀ c ∈ z, isJsWS c = true → c = ' ' := by
    intro c hc hw
    exact ws_mem_collapseAux (mem_trimWS hc) hw
  have hzall : ∀ c ∈ z, allowedChar c = true := by
    intro c hc
    rcases mem_collapseAux (mem_trimWS hc) with h1 | h1
    · exact List.all_eq_true.mp hy c h1
    · rw [h1]; decide
  have hcoll : collapseWS z = z := (collapseAux_eq_self z hzadj hzsp).1
  have htrim : trimWS z = z :=
    trimWS_eq_self (fun _ h => trimWS_head_not_ws h) (fun _ h => trimWS_getLast_not_ws h)
  unfold cleanText
  rw [show collapseWS z = z from hcoll, htrim, List.filter_eq_self.mpr hzall, htrim]

theorem noEdgeWS_trimWS (l : List Char) : noEdgeWS (trimWS l) = true := by
  unfold noEdgeWS
  rw [Bool.and_eq_true]
  constructor
  · cases hh : (trimWS l).head? with
    | none => rfl
    | some c => simp [trimWS_head_not_ws hh]
  · cases hh : (trimWS l).getLast? with
    | none => rfl
    | some c => simp [trimWS_getLast_not_ws hh]

/-- C2 counterexample: `cleanText` is not idempotent.  On `"a . b"` the first
pass removes the disallowed dot that separated two spaces, leaving a double
space that a second pass then collapses. -/
theorem cleanText_not_idempotent_cex :
    cleanText (cleanText ("a . b".toList)) ≠ cleanText ("a . b".toList) := by decide

/-- C2 amended: `cleanText` is idempotent from the second application onward
(the output of `cleanText` contains only allow-listed characters, and on such
strings `cleanText` is a projection); a single application need not be a
fixpoint because removing a disallowed character can merge two whitespace
runs. -/
theorem cleanText_idempotent_amended (x : List Char) :
    cleanText (cleanText (cleanText x)) = cleanText (cleanText x) :=
  cleanText_fixpoint_of_allowed (cleanText_all_allowed x)

/-- C3 counterexample: on `"a . b"` the result `"a  b"` contains two
consecutive spaces, so the conjunction of the claimed trimming and
single-spacing properties fails. -/
theorem cleanText_double_space_cex :
    ¬ (noEdgeWS (cleanText ("a . b".toList)) = true ∧
        hasAdjWS (cleanText ("a . b".toList)) = false) := by decide

/-- C3 amended: `cleanText` output never has leading or trailing whitespace;
runs of more than one space can survive only when the removal of a
disallowed character joins two whitespace runs — for inputs made of
allow-listed characters the output has no adjacent whitespace at all. -/
theorem cleanText_trimmed_amended (x : List Char) :
    noEdgeWS (cleanText x) = true ∧
      (x.all allowedChar = true → hasAdjWS (cleanText x) = false) := by
  constructor
  · unfold cleanText
    exact noEdgeWS_trimWS _
  · intro hx
    rw [cleanText_of_all_allowed hx]
    exact hasAdjWS_trimWS_false (hasAdjWS_collapseAux false x)

/-- C3 witness: the amended theorem applied at the concrete input `"a  b"`. -/
theorem cleanText_trimmed_amended_witness :
    noEdgeWS (cleanText ("a  b".toList)) = true ∧
      hasAdjWS (cleanText ("a  b".toList)) = false :=
  ⟨(cleanText_trimmed_amended ("a  b".toList)).1,
    (cleanText_trimmed_amended ("a  b".toList)).2 (by decide)⟩

/-- C4: the grammatical-type classifier agrees everywhere with its
specification (lowercase and trim; exact table match first; else the first
table key in declaration order occurring as a substring; else the normalized
input), and the claim's concrete examples hold, including the
declaration-order tie-break for an input containing both `noun` and
`plural`. -/
theorem extractGrammaticalType_spec :
    (∀ t : List Char, extractGrammaticalType t = classifyGrammaticalTypeSpec t) ∧
    extractGrammaticalType ("noun".toList) = "n".toList ∧
    extractGrammaticalType ("NOUN".toList) = "n".toList ∧
    extractGrammaticalType ("nounplural".toList) = "n".toList ∧
    extractGrammaticalType ("unknownxyz".toList) = "unknownxyz".toList := by
  refine ⟨?_, by decide, by decide, by decide, by decide⟩
  intro t
  unfold extractGrammaticalType classifyGrammaticalTypeSpec
  by_cases ht : t = []
  · subst ht; decide
  · simp [ht]

/-! ## Structural lemmas about the extractors -/

theorem lemmaEntry_props {lem : Node} {e : LgEntry} (he : lemmaEntry lem = some e) :
    e.fromW ≠ [] ∧ (e.translations ≠ [] ∨ e.contexts ≠ []) ∧
    (∀ c ∈ e.translations, c.text ≠ [] ∧ c.text ≠ e.fromW) ∧
    (∀ ctx ∈ e.contexts, ctx.source ≠ [] ∧ ctx.target ≠ []) := by
  simp only [lemmaEntry] at he
  split_ifs at he with h1 h2
  rw [Option.some.injEq] at he
  subst he
  refine ⟨h1, by simpa using h2, ?_, ?_⟩
  · intro c hc
    simp only [List.mem_filterMap] at hc
    obtain ⟨t, _, hct⟩ := hc
    split_ifs at hct with h3
    rw [Option.some.injEq] at hct
    rw [← hct]
    exact ⟨h3.1, h3.2⟩
  · intro ctx hctx
    simp only [List.mem_filterMap] at hctx
    obtain ⟨x, _, hcx⟩ := hctx
    split_ifs at hcx with h3
    rw [Option.some.injEq] at hcx
    rw [← hcx]
    exact ⟨h3.1, h3.2⟩

theorem fbEntryAt_props {w : List Char} {anc : List Node} {self : Node} {e : LgEntry}
    (he : fbEntryAt w anc self = some e) :
    fbLinkMatches w self = true ∧ e.translations ≠ [] ∧ e.contexts = [] ∧
    (∀ c ∈ e.translations, c.text ≠ [] ∧ c.text ≠ e.fromW) := by
  simp only [fbEntryAt] at he
  split_ifs at he with h1 h2
  cases hfind : (self :: anc).find? isFbContainer with
  | none =>
    rw [hfind] at he
    simp at he
  | some cont =>
    rw [hfind] at he
    dsimp only at he
    split_ifs at he with h3
    rw [Option.some.injEq] at he
    subst he
    refine ⟨?_, by simpa using h3, rfl, ?_⟩
    · simp only [fbLinkMatches, Bool.and_eq_true, h1, true_and,
        Bool.not_eq_true', List.isEmpty_iff]
      exact ⟨by simpa using h2.1, h2.2⟩
    · intro c hc
      simp only [List.mem_filterMap] at hc
      obtain ⟨l, _, hcl⟩ := hc
      split_ifs at hcl with h4
      rw [Option.some.injEq] at hcl
      rw [← hcl]
      exact ⟨h4.1, h4.2⟩

mutual
theorem fbNode_mem_ex : ∀ (w : List Char) (anc : List Node) (n : Node) (e : LgEntry),
    e ∈ fbNode w anc n →
    ∃ anc2 self, (self = n ∨ self ∈ n.descendants) ∧ fbEntryAt w anc2 self = some e
  | w, anc, .text s, e => by simp [fbNode]
  | w, anc, .elem tg cls i a cs, e => by
    intro he
    simp only [fbNode, List.mem_append] at he
    rcases he with he | he
    · refine ⟨anc, .elem tg cls i a cs, Or.inl rfl, ?_⟩
      cases hfe : fbEntryAt w anc (.elem tg cls i a cs) with
      | none => rw [hfe] at he; simp [Option.toList] at he
      | some v =>
        rw [hfe] at he
        simp only [Option.toList, List.mem_singleton] at he
        rw [he]
    · rcases fbList_mem_ex w _ cs e he with ⟨anc2, self, hm, hf⟩
      exact ⟨anc2, self, Or.inr (by simpa [Node.descendants] using hm), hf⟩
theorem fbList_mem_ex : ∀ (w : List Char) (anc : List Node) (ns : List Node) (e : LgEntry),
    e ∈ fbList w anc ns →
    ∃ anc2 self, self ∈ descendantsL ns ∧ fbEntryAt w anc2 self = some e
  | w, anc, [], e => by simp [fbList]
  | w, anc, n :: ns, e => by
    intro he
    simp only [fbList, List.mem_append] at he
    rcases he with he | he
    · rcases fbNode_mem_ex w anc n e he with ⟨anc2, self, hm, hf⟩
      refine ⟨anc2, self, ?_, hf⟩
      rcases hm with rfl | hm
      · simp [descendantsL]
      · simp [descendantsL, List.mem_append, hm]
    · rcases fbList_mem_ex w anc ns e he with ⟨anc2, self, hm, hf⟩
      exact ⟨anc2, self, by simp [descendantsL, List.mem_append, hm], hf⟩
end

/-- Every entry of `fbDoc` comes from `fbEntryAt` at some element of the
document. -/
theorem fbDoc_mem_ex {w : List Char} {root : Node} {e : LgEntry}
    (he : e ∈ fbDoc w root) :
    ∃ anc2 self, self ∈ root.descendants ∧ fbEntryAt w anc2 self = some e := by
  cases root with
  | text s => simp [fbDoc] at he
  | elem tg cls i a cs =>
    simp only [fbDoc] at he
    rcases fbList_mem_ex _ _ _ _ he with ⟨anc2, self, hm, hf⟩
    exact ⟨anc2, self, by simpa [Node.descendants] using hm, hf⟩

mutual
theorem fuNode_mem : ∀ (p q : Node → Bool) (b : Bool) (n m : Node),
    m ∈ fuNode p q b n → q m = true ∧ (m = n ∨ m ∈ n.descendants)
  | p, q, b, .text s, m => by simp [fuNode]
  | p, q, b, .elem tg cls i a cs, m => by
    intro hm
    simp only [fuNode, List.mem_append] at hm
    rcases hm with hm | hm
    · by_cases hb : (b && q (.elem tg cls i a cs)) = true
      · rw [if_pos hb] at hm
        simp only [List.mem_singleton] at hm
        subst hm
        simp only [Bool.and_eq_true] at hb
        exact ⟨hb.2, Or.inl rfl⟩
      · rw [if_neg hb] at hm
        simp at hm
    · rcases fuList_mem p q _ cs m hm with ⟨hq, hmem⟩
      exact ⟨hq, Or.inr (by simpa [Node.descendants] using hmem)⟩
theorem fuList_mem : ∀ (p q : Node → Bool) (b : Bool) (ns : List Node) (m : Node),
    m ∈ fuList p q b ns → q m = true ∧ m ∈ descendantsL ns
  | p, q, b, [], m => by simp [fuList]
  | p, q, b, n :: ns, m => by
    intro hm
    simp only [fuList, List.mem_append] at hm
    rcases hm with hm | hm
    · rcases fuNode_mem p q b n m hm with ⟨hq, hmem⟩
      refine ⟨hq, ?_⟩
      rcases hmem with rfl | hmem
      · simp [descendantsL]
      · simp [descendantsL, List.mem_append, hmem]
    · rcases fuList_mem p q b ns m hm with ⟨hq, hmem⟩
      exact ⟨hq, by simp [descendantsL, List.mem_append, hmem]⟩
end

theorem findUnder_mem {p q : Node → Bool} {n m : Node}
    (hm : m ∈ findUnder p q n) : q m = true ∧ m ∈ n.descendants := by
  cases n with
  | text s => simp [findUnder] at hm
  | elem tg cls i a cs =>
    simp only [findUnder] at hm
    rcases fuList_mem p q false cs m hm with ⟨hq, hmem⟩
    exact ⟨hq, by simpa [Node.descendants] using hmem⟩

theorem dedupePush_nodup_aux : ∀ (ms acc : List (List Char)), acc.Nodup →
    (ms.foldl (fun acc m => if m ∈ acc then acc else acc ++ [m]) acc).Nodup
  | [], acc, h => h
  | m :: ms, acc, h => by
    simp only [List.foldl_cons]
    by_cases hm : m ∈ acc
    · rw [if_pos hm]
      exact dedupePush_nodup_aux ms acc h
    · rw [if_neg hm]
      refine dedupePush_nodup_aux ms _ ?_
      rw [List.nodup_append]
      refine ⟨h, List.nodup_singleton m, ?_⟩
      intro a ha hb
      simp only [List.mem_singleton] at hb
      subst hb
      exact hm ha

theorem dedupePush_nodup (ms : List (List Char)) : (dedupePush ms).Nodup :=
  dedupePush_nodup_aux ms [] List.nodup_nil

theorem extractAudioFiles_nodup (html : List Char) : (extractAudioFiles html).Nodup := by
  unfold extractAudioFiles
  cases findAudioBlock html with
  | none => exact List.nodup_nil
  | some content => exact dedupePush_nodup _

theorem processWRDTable_meanings {tb : Node} :
    ∀ tr ∈ (processWRDTable tb).translations, tr.meanings.length = 1 := by
  intro tr htr
  simp only [processWRDTable] at htr
  simp only [List.mem_filterMap] at htr
  obtain ⟨row, _, hmk⟩ := htr
  by_cases h : ((findAll isFrCell row).isEmpty || (findAll isToCell row).isEmpty) = true
  · rw [if_pos h] at hmk
    simp at hmk
  · rw [if_neg h] at hmk
    rw [Option.some.injEq] at hmk
    rw [← hmk]
    rfl

/-- C1 counterexample: a WordReference row whose source and target cells are
empty still yields a retained translation entry whose single meaning is
entirely unpopulated and whose example list is empty — contradicting the
claim that entries with no populated meaning and no example are discarded. -/
theorem wr_empty_meaning_entry_cex :
    ∃ sec ∈ (processHTML [] wrEmptyRowDoc ("w".toList) ("t".toList)).sections,
      ∃ tr ∈ sec.translations,
        tr.examples = [] ∧ ∀ m ∈ tr.meanings, m.word = [] ∧ m.pos = [] ∧ m.sense = [] := by
  decide

/-- C1 amended: every retained Linguee entry has at least one populated
translation candidate or one populated context (both-sides non-empty); a
WordReference translation entry always carries exactly one meaning element —
possibly with empty text — and is never filtered by content. -/
theorem retained_entries_populated_amended (html : List Char) (dom : Node)
    (w now iw f t : List Char) :
    (∀ sec ∈ (processHTML html dom w now).sections, ∀ tr ∈ sec.translations,
      tr.meanings.length = 1) ∧
    (∀ e ∈ (processLingueeHTML dom iw f t).translations,
      (∃ c ∈ e.translations, c.text ≠ []) ∨
        (∃ ctx ∈ e.contexts, ctx.source ≠ [] ∧ ctx.target ≠ [])) := by
  constructor
  · intro sec hsec tr htr
    simp only [processHTML] at hsec
    have h1 := (List.mem_filter.mp hsec).1
    rcases List.mem_map.mp h1 with ⟨tb, _, rfl⟩
    exact processWRDTable_meanings tr htr
  · intro e he
    simp only [processLingueeHTML] at he
    by_cases hp : (lingueePrimary dom).isEmpty = true
    · rw [if_pos hp] at he
      have he2 : e ∈ fbDoc iw dom := he
      rcases fbDoc_mem_ex he2 with ⟨anc2, self, _, hf⟩
      rcases fbEntryAt_props hf with ⟨_, hne, _, hprops⟩
      rcases List.exists_mem_of_ne_nil _ hne with ⟨c, hc⟩
      exact Or.inl ⟨c, hc, (hprops c hc).1⟩
    · rw [if_neg hp] at he
      have he2 : e ∈ lingueePrimary dom := he
      simp only [lingueePrimary, List.mem_filterMap] at he2
      obtain ⟨lem, _, hle⟩ := he2
      rcases lemmaEntry_props hle with ⟨_, hor, hctrans, hcctx⟩
      rcases hor with hne | hne
      · rcases List.exists_mem_of_ne_nil _ hne with ⟨c, hc⟩
        exact Or.inl ⟨c, hc, (hctrans c hc).1⟩
      · rcases List.exists_mem_of_ne_nil _ hne with ⟨ctx, hctx⟩
        exact Or.inr ⟨ctx, hctx, hcctx ctx hctx⟩

/-- C1 witness: the amended theorem applied to a concrete lemma block that is
retained with the populated candidate `house`. -/
theorem retained_entries_populated_amended_witness :
    (∃ c ∈ lgPopulatedEntry.translations, c.text ≠ []) ∨
      (∃ ctx ∈ lgPopulatedEntry.contexts, ctx.source ≠ [] ∧ ctx.target ≠ []) :=
  (retained_entries_populated_amended [] lgPopulatedDoc ("w".toList) ("t".toList)
    ("casa".toList) ("es".toList) ("en".toList)).2 lgPopulatedEntry (by decide)

/-- C5: the Linguee fallback pass runs exactly when the primary pass retained
zero lemma blocks; when the primary pass retained at least one block, the
returned result is exactly the primary result. -/
theorem linguee_fallback_iff_primary_empty (dom : Node) (iw f t : List Char) :
    (lingueePrimary dom ≠ [] →
      processLingueeHTML dom iw f t =
        LgResult.mk ("linguee".toList) iw f t (lingueePrimary dom)) ∧
    (lingueePrimary dom = [] →
      processLingueeHTML dom iw f t = tryFallbackProcessing dom iw f t) := by
  constructor
  · intro h
    simp only [processLingueeHTML]
    rw [if_neg (by simpa using h)]
  · intro h
    simp only [processLingueeHTML]
    rw [if_pos (by simpa using h)]

/-- C5 witness: the theorem applied to a document whose primary pass retains
one block (no fallback) and to an empty document (fallback). -/
theorem linguee_fallback_iff_primary_empty_witness :
    processLingueeHTML lgPrimaryDoc ("sol".toList) ("es".toList) ("en".toList) =
      LgResult.mk ("linguee".toList) ("sol".toList) ("es".toList) ("en".toList)
        (lingueePrimary lgPrimaryDoc) ∧
    processLingueeHTML emptyBody ("x".toList) ("es".toList) ("en".toList) =
      tryFallbackProcessing emptyBody ("x".toList) ("es".toList) ("en".toList) :=
  ⟨(linguee_fallback_iff_primary_empty lgPrimaryDoc ("sol".toList) ("es".toList)
      ("en".toList)).1 (by decide),
   (linguee_fallback_iff_primary_empty emptyBody ("x".toList) ("es".toList)
      ("en".toList)).2 (by decide)⟩

/-- C6: no Linguee translation candidate ever equals its entry's source word —
both the primary pass and the fallback pass filter such candidates out. -/
theorem linguee_no_self_translation (dom : Node) (iw f t : List Char) :
    ∀ e ∈ (processLingueeHTML dom iw f t).translations,
      ∀ c ∈ e.translations, c.text ≠ e.fromW := by
  intro e he c hc
  simp only [processLingueeHTML] at he
  by_cases hp : (lingueePrimary dom).isEmpty = true
  · rw [if_pos hp] at he
    have he2 : e ∈ fbDoc iw dom := he
    rcases fbDoc_mem_ex he2 with ⟨anc2, self, _, hf⟩
    exact ((fbEntryAt_props hf).2.2.2 c hc).2
  · rw [if_neg hp] at he
    have he2 : e ∈ lingueePrimary dom := he
    simp only [lingueePrimary, List.mem_filterMap] at he2
    obtain ⟨lem, _, hle⟩ := he2
    exact ((lemmaEntry_props hle).2.2.1 c hc).2

/-- C6 witness: in a lemma block for `luna` with candidates `luna` and `moon`,
the retained candidate (`moon`) differs from the source word. -/
theorem linguee_no_self_translation_witness :
    (LgCandidate.mk ("moon".toList) [] ("unknown".toList) false).text ≠
      lgSelfRefEntry.fromW :=
  linguee_no_self_translation lgSelfRefDoc ("luna".toList) ("es".toList) ("en".toList)
    lgSelfRefEntry (by decide) (LgCandidate.mk ("moon".toList) [] ("unknown".toList) false)
    (by decide)

/-- C7: on a page whose embedded audio map holds the relative path
`/audio/a.mp3`, the WordReference result's audio links are that raw path —
deduplicated, but with no domain prefix.  `extractAudioFiles`, the function
`processHTML` actually calls, never prefixes the site domain (the prefixing
lives only in the unused `AudioExtractor.extractWordReferenceAudio` helper,
and the repository's README documents domain-prefixed absolute URLs), so the
absolute-URL half of the claim fails against the live code path. -/
theorem audioLinks_failing_eval :
    (processHTML audioHtml emptyBody ("w".toList) ("t".toList)).audioLinks =
      [("/audio/a.mp3".toList)] ∧
    (processHTML audioHtml emptyBody ("w".toList) ("t".toList)).audioLinks.Nodup ∧
    ¬ (∀ u ∈ (processHTML audioHtml emptyBody ("w".toList) ("t".toList)).audioLinks,
        ("https://www.wordreference.com".toList).isPrefixOf u = true) := by
  decide

/-- C8 counterexample: a document with zero `.lemma` elements on which the
Linguee extractor nevertheless returns a non-empty translations collection,
because the fallback pass salvages a `.translation_group` block. -/
theorem linguee_fallback_nonempty_cex :
    docSelect (hasClass ("lemma".toList)) lgNoLemmaDoc = [] ∧
    (processLingueeHTML lgNoLemmaDoc ("perro".toList) ("es".toList) ("en".toList)).translations
      ≠ [] :=
  ⟨rfl, by decide⟩

/-- C8 amended: with zero qualifying `table.WRD` elements the WordReference
sections are empty; with zero `.lemma` elements the Linguee primary pass
retains nothing and the fallback runs, so the translations collection is
empty only when additionally no `.dictLink` element's text contains the
input word; extraction is total (never throws) in both cases. -/
theorem empty_extraction_amended (html : List Char) (dom : Node)
    (w now iw f t : List Char) :
    (docSelect (fun n => isTag ("table".toList) n && hasClass ("WRD".toList) n) dom = [] →
      (processHTML html dom w now).sections = []) ∧
    (docSelect (hasClass ("lemma".toList)) dom = [] →
      (∀ n ∈ dom.descendants, fbLinkMatches iw n = false) →
      (processLingueeHTML dom iw f t).translations = []) := by
  constructor
  · intro h
    simp only [processHTML]
    rw [h]
    rfl
  · intro hlem hfb
    have hlemmas : lingueeLemmas dom = [] := by
      unfold lingueeLemmas
      split_ifs with hdict
      · exact hlem
      · by_contra hne
        obtain ⟨m, hm⟩ := List.exists_mem_of_ne_nil _ hne
        have hprops := findUnder_mem hm
        have hmem : m ∈ docSelect (hasClass ("lemma".toList)) dom :=
          List.mem_filter.mpr ⟨hprops.2, hprops.1⟩
        rw [hlem] at hmem
        simp at hmem
    have hprim : lingueePrimary dom = [] := by
      unfold lingueePrimary
      rw [hlemmas]
      rfl
    have hfallback : fbDoc iw dom = [] := by
      by_contra hne
      obtain ⟨e, he⟩ := List.exists_mem_of_ne_nil _ hne
      rcases fbDoc_mem_ex he with ⟨anc2, self, hself, hf⟩
      have h1 := (fbEntryAt_props hf).1
      rw [hfb self hself] at h1
      exact absurd h1 (by simp)
    simp only [processLingueeHTML]
    rw [hprim]
    simp only [List.isEmpty_nil, if_true]
    exact hfallback

/-- C8 witness: the amended theorem applied to the empty document for both
extractors. -/
theorem empty_extraction_amended_witness :
    (processHTML [] emptyBody ("w".toList) ("t".toList)).sections = [] ∧
    (processLingueeHTML emptyBody ("x".toList) ("es".toList) ("en".toList)).translations
      = [] :=
  ⟨(empty_extraction_amended [] emptyBody ("w".toList) ("t".toList) ("x".toList)
      ("es".toList) ("en".toList)).1 rfl,
   (empty_extraction_amended [] emptyBody ("w".toList) ("t".toList) ("x".toList)
      ("es".toList) ("en".toList)).2 rfl (by decide)⟩

/-- C9 counterexample: two calls of the WordReference extractor on identical
HTML at different clock readings produce results that are not deep-equal —
the `timestamp` field records each call's `new Date().toISOString()`. -/
theorem wr_timestamp_cex :
    processHTML [] emptyBody ("w".toList) ("t1".toList) ≠
      processHTML [] emptyBody ("w".toList) ("t2".toList) := by decide

/-- C9 amended: extraction is deterministic in every field except the
WordReference `timestamp`: for a fixed HTML, parse tree and input word, two
calls agree on `inputWord`, `sections`, `audioLinks` and `source`, and each
call's `timestamp` is exactly the clock value it was invoked with (the
Linguee result record carries no timestamp at all, so it depends on nothing
but the arguments by construction). -/
theorem extractor_deterministic_amended (html : List Char) (dom : Node)
    (w n1 n2 : List Char) :
    (processHTML html dom w n1).inputWord = (processHTML html dom w n2).inputWord ∧
    (processHTML html dom w n1).sections = (processHTML html dom w n2).sections ∧
    (processHTML html dom w n1).audioLinks = (processHTML html dom w n2).audioLinks ∧
    (processHTML html dom w n1).source = (processHTML html dom w n2).source ∧
    (processHTML html dom w n1).timestamp = n1 :=
  ⟨rfl, rfl, rfl, rfl, rfl⟩

